import Mathlib

/-!
Verification of the session/trace manager of the `interactive` crate
(`src/interactive/src/manager.rs`) of this differential-dataflow repository.

The manager code is embedded shallowly:

* `HashMap` is modelled by an association list whose `mapInsert` replaces an
  existing binding for the key (the unique-key discipline of `HashMap` is the
  `Nodup` well-formedness predicate below);
* a `TraceAgent` handle is modelled by `TraceHandle`: a shared-state identity
  (`traceId`, preserved by `clone`) together with the two frontiers mutated by
  `advance_by` and `distinguish_since`;
* an `InputSession` is modelled by its current time, its pending buffer and
  the flushed (engine-visible) updates;
* a Rust `panic!` / failed `assert!` is modelled by `Option`: `none` is the
  fatal halt.

Types of this repository that are not under `src/` (`Plan`, `Time`, `Diff`,
the session and trace-agent internals, the logged event types) are modelled
from the spec, as marked on their doc comments.
-/

/-- Modelled from the spec: `Time` (defined outside `src/`) is a logical
timestamp with a total advancement order per stream; we instantiate it at a
representative totally ordered clock. -/
abbrev Time := Nat

/-- Modelled from the spec: `Diff` is a signed integer multiplicity delta. -/
abbrev Diff := Int

/-- The record element type; the Rust code is generic over `Value: Data+Hash`,
instantiated here at a representative data type. -/
abbrev Value := Nat

/-- Modelled from the spec: `Plan` (defined outside `src/`) is an immutable
recursive descriptor of a logical collection — a named external `Source` or a
composite expression over other Plans — compared by derived structural
equality, never by object identity. -/
inductive Plan where
  | source (name : String)
  | filter (predicate : Nat) (input : Plan)
  | join (left : Plan) (right : Plan)
deriving DecidableEq

/-- Lookup in an association list modelling `HashMap::get`. -/
def mapFind? {K V : Type} [DecidableEq K] (k : K) : List (K × V) → Option V
  | [] => none
  | (k₁, v) :: rest => if k₁ = k then some v else mapFind? k rest

/-- Insertion into an association list modelling `HashMap::insert`: an
existing binding for the key is replaced, otherwise the binding is appended. -/
def mapInsert {K V : Type} [DecidableEq K] (k : K) (v : V) : List (K × V) → List (K × V)
  | [] => [(k, v)]
  | (k₁, v₁) :: rest => if k₁ = k then (k, v) :: rest else (k₁, v₁) :: mapInsert k v rest

/-- Modelled from the spec: a trace handle (`TraceAgent`, defined outside
`src/`). `traceId` identifies the shared underlying trace state: cloned
handles alias the same state, so equal `traceId` is the aliasing relation.
`advanceFrontier` is the retained-history horizon moved by `advance_by`;
`throughFrontier` is the frontier moved by `distinguish_since`. -/
structure TraceHandle where
  traceId : Nat
  advanceFrontier : List Time
  throughFrontier : List Time
deriving DecidableEq

/-- Frontier comparison: `frontierLE f g` holds when every element of `g` is
at or beyond some element of `f`; the empty frontier is the maximum. -/
def frontierLE (f g : List Time) : Bool :=
  g.all (fun t₂ => f.any (fun t₁ => decide (t₁ ≤ t₂)))

/-- Cloning a handle shares the underlying trace state (reference count). -/
def TraceHandle.clone (h : TraceHandle) : TraceHandle := h

/-- Modelled from the spec: `TraceReader::advance_by` (defined outside `src/`)
advances the retained-history horizon; time advancement is monotonic per
cached trace and violating it is a fatal precondition failure (`none`). -/
def TraceHandle.advance_by (h : TraceHandle) (frontier : List Time) : Option TraceHandle :=
  if frontierLE h.advanceFrontier frontier then
    some { h with advanceFrontier := frontier }
  else
    none

/-- Modelled from the spec: `TraceReader::distinguish_since` (defined outside
`src/`) forces the handle's other retained-history frontier. -/
def TraceHandle.distinguish_since (h : TraceHandle) (frontier : List Time) : TraceHandle :=
  { h with throughFrontier := frontier }

/-- Modelled from the spec: an `InputSession` (defined outside `src/`) is a
mutable named handle with a current local time and a private buffer of
pending updates not yet visible to the engine. -/
structure InputSession where
  time : Time
  buffer : List (List Value × Time × Diff)
  flushed : List (List Value × Time × Diff)
deriving DecidableEq

/-- Modelled from the spec: `InputSession::advance_to` requires the new time
to be at or beyond every previously advanced time; violation is a fatal
precondition failure (`none`). -/
def InputSession.advance_to (s : InputSession) (time : Time) : Option InputSession :=
  if s.time ≤ time then some { s with time := time } else none

/-- Modelled from the spec: `InputSession::flush` makes all buffered updates
visible to the engine. -/
def InputSession.flush (s : InputSession) : InputSession :=
  { s with buffer := [], flushed := s.flushed ++ s.buffer }

/-- `InputManager`: input sessions by name (`manager.rs:231`). -/
structure InputManager where
  sessions : List (String × InputSession)
deriving DecidableEq

/-- `InputManager::new` (`manager.rs:239`). -/
def InputManager.new : InputManager := ⟨[]⟩

/-- The loop body of `InputManager::advance_time`: advance each session to
`time`, then flush it; a failed advance is the fatal halt. -/
def advanceSessions (time : Time) :
    List (String × InputSession) → Option (List (String × InputSession))
  | [] => some []
  | (name, s) :: rest =>
      (s.advance_to time).bind (fun s₁ =>
        (advanceSessions time rest).map (fun rest₁ => (name, s₁.flush) :: rest₁))

/-- `InputManager::advance_time` (`manager.rs:242-247`). -/
def InputManager.advance_time (im : InputManager) (time : Time) : Option InputManager :=
  (advanceSessions time im.sessions).map (fun sessions₁ => ⟨sessions₁⟩)

/-- `TraceManager`: the unkeyed (`inputs`) and keyed (`arrangements`) caches
(`manager.rs:255-267`). -/
structure TraceManager where
  inputs : List (Plan × TraceHandle)
  arrangements : List (Plan × List (List Nat × TraceHandle))
deriving DecidableEq

/-- `TraceManager::new` (`manager.rs:272`). -/
def TraceManager.new : TraceManager := ⟨[], []⟩

/-- The `trace.advance_by(frontier)` loop of `TraceManager::advance_time`,
over the values of a map (run on the unkeyed cache, and on each plan's keyed
map). -/
def advanceHandles {K : Type} (frontier : List Time) :
    List (K × TraceHandle) → Option (List (K × TraceHandle))
  | [] => some []
  | (k, h) :: rest =>
      (h.advance_by frontier).bind (fun h₁ =>
        (advanceHandles frontier rest).map (fun rest₁ => (k, h₁) :: rest₁))

/-- The second loop of `TraceManager::advance_time` over the keyed cache. -/
def advanceKeyedOuter (frontier : List Time) :
    List (Plan × List (List Nat × TraceHandle)) →
    Option (List (Plan × List (List Nat × TraceHandle)))
  | [] => some []
  | (p, inner) :: rest =>
      (advanceHandles frontier inner).bind (fun inner₁ =>
        (advanceKeyedOuter frontier rest).map (fun rest₁ => (p, inner₁) :: rest₁))

/-- `TraceManager::advance_time` (`manager.rs:275-287`): advances the frontier
of each maintained trace by `&[time.clone()]`. -/
def TraceManager.advance_time (tm : TraceManager) (time : Time) : Option TraceManager :=
  (advanceHandles [time] tm.inputs).bind (fun inputs₁ =>
    (advanceKeyedOuter [time] tm.arrangements).map (fun arrangements₁ =>
      ⟨inputs₁, arrangements₁⟩))

/-- `TraceManager::get_unkeyed` (`manager.rs:290-294`): `self.inputs.get(plan)
.map(|x| x.clone())`. -/
def TraceManager.get_unkeyed (tm : TraceManager) (plan : Plan) : Option TraceHandle :=
  (mapFind? plan tm.inputs).map (fun x => x.clone)

/-- `TraceManager::set_unkeyed` (`manager.rs:297-306`): clone the handle,
`distinguish_since(&[])`, and insert it under the plan. -/
def TraceManager.set_unkeyed (tm : TraceManager) (plan : Plan) (handle : TraceHandle) :
    TraceManager :=
  { tm with inputs := mapInsert plan (handle.clone.distinguish_since []) tm.inputs }

/-- `TraceManager::get_keyed` (`manager.rs:309-313`): nested lookup, cloning
the stored handle. -/
def TraceManager.get_keyed (tm : TraceManager) (plan : Plan) (keys : List Nat) :
    Option TraceHandle :=
  (mapFind? plan tm.arrangements).bind (fun map => (mapFind? keys map).map (fun x => x.clone))

/-- `TraceManager::set_keyed` (`manager.rs:316-324`): clone the handle,
`distinguish_since(&[])`, and insert it under the plan's keyed map (created
empty when absent, as `entry(..).or_insert(HashMap::new())`). -/
def TraceManager.set_keyed (tm : TraceManager) (plan : Plan) (keys : List Nat)
    (handle : TraceHandle) : TraceManager :=
  let inner := (mapFind? plan tm.arrangements).getD []
  let inner₁ := mapInsert keys (handle.clone.distinguish_since []) inner
  { tm with arrangements := mapInsert plan inner₁ tm.arrangements }

/-- `Manager`: inputs, traces and the probe (`manager.rs:39-46`). The probe
is opaque here; the manager's operations never touch it. -/
structure Manager where
  inputs : InputManager
  traces : TraceManager
  probe : Nat
deriving DecidableEq

/-- `Manager::new` (`manager.rs:51-57`). -/
def Manager.new : Manager := ⟨InputManager.new, TraceManager.new, 0⟩

/-- `Manager::shutdown` (`manager.rs:60-64`): clear the sessions and both
trace caches. -/
def Manager.shutdown (m : Manager) : Manager :=
  { m with
      inputs := { sessions := [] },
      traces := { inputs := [], arrangements := [] } }

/-- `Manager::insert_input` (`manager.rs:67-75`): register the session by
name and install its trace under `Plan::Source(name)`. -/
def Manager.insert_input (m : Manager) (name : String) (input : InputSession)
    (trace : TraceHandle) : Manager :=
  { m with
      inputs := ⟨mapInsert name input m.inputs.sessions⟩,
      traces := m.traces.set_unkeyed (Plan.source name) trace }

/-- `Manager::advance_time` (`manager.rs:78-81`): advance inputs, then
traces. -/
def Manager.advance_time (m : Manager) (time : Time) : Option Manager :=
  (m.inputs.advance_time time).bind (fun inputs₁ =>
    (m.traces.advance_time time).map (fun traces₁ =>
      { m with inputs := inputs₁, traces := traces₁ }))

/-- Modelled from the spec: the execution-engine telemetry event type
(`TimelyEvent`, defined outside `src/`) is a tagged union over a closed set
of categories; `other` stands for the remaining categories, which the demux
drops. Payloads are representative data. -/
inductive TimelyEvent where
  | operates (payload : Nat)
  | channels (payload : Nat)
  | schedule (payload : Nat)
  | messages (payload : Nat)
  | other (payload : Nat)
deriving DecidableEq

/-- Modelled from the spec: `AsVector` converts an event into its category's
flat record representation (the implementation is outside `src/`); the tag and
payload are kept so distinct events stay distinct. -/
def TimelyEvent.as_vector : TimelyEvent → List Value
  | .operates payload => [0, payload]
  | .channels payload => [1, payload]
  | .schedule payload => [2, payload]
  | .messages payload => [3, payload]
  | .other payload => [4, payload]

/-- Modelled from the spec: the incremental-engine telemetry event type
(`DifferentialEvent`, defined outside `src/`). -/
inductive DifferentialEvent where
  | batch (payload : Nat)
  | merge (payload : Nat)
  | other (payload : Nat)
deriving DecidableEq

/-- Modelled from the spec: flat record representation of an incremental
engine event. -/
def DifferentialEvent.as_vector : DifferentialEvent → List Value
  | .batch payload => [0, payload]
  | .merge payload => [1, payload]
  | .other payload => [2, payload]

/-- An update emitted by a demux output session: `(datum.as_vector(), time, 1)`. -/
abbrev Update := List Value × Time × Diff

/-- The demux loop of `Manager::publish_timely_logging`
(`manager.rs:127-143`): each `(time, _worker, datum)` triple is matched on
the event's category and given to that category's output session with
multiplicity `1` at the record's own time; other categories fall to `_ => {}`.
Outputs are `(operates, channels, schedule, messages)` in input order. -/
def demuxTimely : List (Time × Nat × TimelyEvent) →
    List Update × List Update × List Update × List Update
  | [] => ([], [], [], [])
  | (time, _worker, datum) :: rest =>
    let (operates, channels, schedule, messages) := demuxTimely rest
    match datum with
    | .operates _ => ((datum.as_vector, time, 1) :: operates, channels, schedule, messages)
    | .channels _ => (operates, (datum.as_vector, time, 1) :: channels, schedule, messages)
    | .schedule _ => (operates, channels, (datum.as_vector, time, 1) :: schedule, messages)
    | .messages _ => (operates, channels, schedule, (datum.as_vector, time, 1) :: messages)
    | .other _ => (operates, channels, schedule, messages)

/-- The demux loop of `Manager::publish_differential_logging`
(`manager.rs:202-212`); outputs are `(batch, merge)` in input order. -/
def demuxDifferential : List (Time × Nat × DifferentialEvent) →
    List Update × List Update
  | [] => ([], [])
  | (time, _worker, datum) :: rest =>
    let (batch, merge) := demuxDifferential rest
    match datum with
    | .batch _ => ((datum.as_vector, time, 1) :: batch, merge)
    | .merge _ => (batch, (datum.as_vector, time, 1) :: merge)
    | .other _ => (batch, merge)

/-- The trailing installs of `Manager::publish_timely_logging`
(`manager.rs:158-161`): the four traces produced by the dataflow (passed in
here, since the dataflow engine is external) are installed by `set_unkeyed`
under the well-known source names, in program order. -/
def Manager.publish_timely_logging (m : Manager)
    (operates channels schedule messages : TraceHandle) : Manager :=
  let t₁ := m.traces.set_unkeyed (Plan.source "logs/timely/operates") operates
  let t₂ := t₁.set_unkeyed (Plan.source "logs/timely/channels") channels
  let t₃ := t₂.set_unkeyed (Plan.source "logs/timely/schedule") schedule
  let t₄ := t₃.set_unkeyed (Plan.source "logs/timely/messages") messages
  { m with traces := t₄ }

/-- The trailing installs of `Manager::publish_differential_logging`
(`manager.rs:225-226`). -/
def Manager.publish_differential_logging (m : Manager)
    (batch merge : TraceHandle) : Manager :=
  let t₁ := m.traces.set_unkeyed (Plan.source "logs/differential/arrange/batch") batch
  let t₂ := t₁.set_unkeyed (Plan.source "logs/differential/arrange/merge") merge
  { m with traces := t₂ }

/-- Calling `manager.traces.set_unkeyed(plan, handle)` through the manager. -/
def Manager.set_unkeyed (m : Manager) (plan : Plan) (handle : TraceHandle) : Manager :=
  { m with traces := m.traces.set_unkeyed plan handle }

/-- Calling `manager.traces.set_keyed(plan, keys, handle)` through the manager. -/
def Manager.set_keyed (m : Manager) (plan : Plan) (keys : List Nat)
    (handle : TraceHandle) : Manager :=
  { m with traces := m.traces.set_keyed plan keys handle }

/-- A mutating call on the manager, for reasoning over operation sequences. -/
inductive Op where
  | insertInput (name : String) (input : InputSession) (trace : TraceHandle)
  | advanceTime (time : Time)
  | setUnkeyed (plan : Plan) (handle : TraceHandle)
  | setKeyed (plan : Plan) (keys : List Nat) (handle : TraceHandle)
  | getUnkeyed (plan : Plan)
  | getKeyed (plan : Plan) (keys : List Nat)
  | shutdown
  | publishTimely (operates channels schedule messages : TraceHandle)
  | publishDifferential (batch merge : TraceHandle)
deriving DecidableEq

/-- Execute one call; `get_unkeyed` and `get_keyed` take `&self` in the
source and leave the state untouched. -/
def Manager.exec (m : Manager) : Op → Option Manager
  | .insertInput name input trace => some (m.insert_input name input trace)
  | .advanceTime time => m.advance_time time
  | .setUnkeyed plan handle => some (m.set_unkeyed plan handle)
  | .setKeyed plan keys handle => some (m.set_keyed plan keys handle)
  | .getUnkeyed _ => some m
  | .getKeyed _ _ => some m
  | .shutdown => some m.shutdown
  | .publishTimely operates channels schedule messages =>
      some (m.publish_timely_logging operates channels schedule messages)
  | .publishDifferential batch merge =>
      some (m.publish_differential_logging batch merge)

/-- Execute a call sequence, halting on a fatal precondition failure. -/
def Manager.run (m : Manager) : List Op → Option Manager
  | [] => some m
  | op :: ops => (m.exec op).bind (fun m₁ => m₁.run ops)

/-- The plans an operation passes to `set_unkeyed` (including the internal
calls of `insert_input` and the publish operations). -/
def Op.unkeyedPlans : Op → List Plan
  | .insertInput name _ _ => [Plan.source name]
  | .setUnkeyed plan _ => [plan]
  | .publishTimely _ _ _ _ =>
      [Plan.source "logs/timely/operates", Plan.source "logs/timely/channels",
       Plan.source "logs/timely/schedule", Plan.source "logs/timely/messages"]
  | .publishDifferential _ _ =>
      [Plan.source "logs/differential/arrange/batch",
       Plan.source "logs/differential/arrange/merge"]
  | _ => []

/-- The (plan, keys) pairs an operation passes to `set_keyed`. -/
def Op.keyedPairs : Op → List (Plan × List Nat)
  | .setKeyed plan keys _ => [(plan, keys)]
  | _ => []

/-- A sequence of `Manager::advance_time` calls, halting at the first fatal
precondition failure. -/
def Manager.advance_seq (m : Manager) : List Time → Option Manager
  | [] => some m
  | t :: ts => (m.advance_time t).bind (fun m₁ => m₁.advance_seq ts)

/-- Number of bindings of a key in an association list. -/
def countKey {K V : Type} [DecidableEq K] (k : K) (l : List (K × V)) : Nat :=
  (l.filter (fun e => decide (e.1 = k))).length

/-- Every owned entity of the manager stands exactly at time `t`: every
session's local time is `t` and every cached trace's horizon is `[t]`. -/
def AtTime (m : Manager) (t : Time) : Prop :=
  (∀ e ∈ m.inputs.sessions, e.2.time = t) ∧
  (∀ e ∈ m.traces.inputs, e.2.advanceFrontier = [t]) ∧
  (∀ e ∈ m.traces.arrangements, ∀ ke ∈ e.2, ke.2.advanceFrontier = [t])

/-- Category tag of an execution-engine telemetry event; the matched set of
the demux is the categories `0`-`3`, `4` covers the unmatched categories. -/
def TimelyEvent.category : TimelyEvent → Nat
  | .operates _ => 0
  | .channels _ => 1
  | .schedule _ => 2
  | .messages _ => 3
  | .other _ => 4

/-- Category tag of an incremental-engine telemetry event; matched set is
`0`-`1`. -/
def DifferentialEvent.category : DifferentialEvent → Nat
  | .batch _ => 0
  | .merge _ => 1
  | .other _ => 2

/-- Specified from the spec's partition guarantee: the output of category `c`
holds exactly the input events whose category is `c`, each converted to its
flat record, at the same logical time it arrived, with multiplicity `+1`, in
input order. -/
def timelySpecOutput (c : Nat) (batch : List (Time × Nat × TimelyEvent)) : List Update :=
  batch.filterMap (fun e =>
    if e.2.2.category = c then some (e.2.2.as_vector, e.1, (1 : Diff)) else none)

/-- Specified from the spec's partition guarantee, for the incremental
engine's events. -/
def differentialSpecOutput (c : Nat) (batch : List (Time × Nat × DifferentialEvent)) :
    List Update :=
  batch.filterMap (fun e =>
    if e.2.2.category = c then some (e.2.2.as_vector, e.1, (1 : Diff)) else none)

/-- A concrete trace handle used to instantiate hypotheses. -/
def handleEx : TraceHandle := ⟨7, [0], [0]⟩

/-- A concrete input session with one pending update. -/
def sessionEx : InputSession := ⟨0, [([1], 0, 1)], []⟩

/-- A concrete manager holding one session, one unkeyed trace and one keyed
trace. -/
def managerEx : Manager :=
  ⟨⟨[("x", sessionEx)]⟩,
   ⟨[(Plan.source "x", handleEx)], [(Plan.source "x", [([0], handleEx)])]⟩, 0⟩

/-- The manager `managerEx` after advancing to time `3`. -/
def managerExAdv : Manager :=
  ⟨⟨[("x", ⟨3, [], [([1], 0, 1)]⟩)]⟩,
   ⟨[(Plan.source "x", ⟨7, [3], [0]⟩)], [(Plan.source "x", [([0], ⟨7, [3], [0]⟩)])]⟩, 0⟩


section MapLemmas

variable {K V : Type} [DecidableEq K]

theorem mapFind?_insert_self (k : K) (v : V) (l : List (K × V)) :
    mapFind? k (mapInsert k v l) = some v := by
  induction l with
  | nil => simp [mapInsert, mapFind?]
  | cons e rest ih =>
    obtain ⟨k₁, v₁⟩ := e
    by_cases hk : k₁ = k
    · simp [mapInsert, hk, mapFind?]
    · simp [mapInsert, hk, mapFind?, ih]

theorem mapFind?_insert_ne {k' k : K} (hne : k' ≠ k) (v : V) (l : List (K × V)) :
    mapFind? k' (mapInsert k v l) = mapFind? k' l := by
  induction l with
  | nil => simp [mapInsert, mapFind?, Ne.symm hne]
  | cons e rest ih =>
    obtain ⟨k₁, v₁⟩ := e
    by_cases hk : k₁ = k
    · subst hk
      simp [mapInsert, mapFind?, Ne.symm hne]
    · simp only [mapInsert, if_neg hk, mapFind?]
      by_cases hk' : k₁ = k'
      · simp [if_pos hk']
      · simp [if_neg hk', ih]

theorem mapFind?_eq_none_iff (k : K) (l : List (K × V)) :
    mapFind? k l = none ↔ k ∉ l.map Prod.fst := by
  induction l with
  | nil => simp [mapFind?]
  | cons e rest ih =>
    obtain ⟨k₁, v₁⟩ := e
    by_cases hk : k₁ = k
    · subst hk
      simp [mapFind?]
    · simp [mapFind?, if_neg hk, ih, not_or, Ne.symm hk]

theorem mapFind?_some_mem {k : K} {v : V} {l : List (K × V)}
    (h : mapFind? k l = some v) : (k, v) ∈ l := by
  induction l with
  | nil => simp [mapFind?] at h
  | cons e rest ih =>
    obtain ⟨k₁, v₁⟩ := e
    by_cases hk : k₁ = k
    · subst hk
      have hstep : mapFind? k₁ ((k₁, v₁) :: rest) = some v₁ := by simp [mapFind?]
      rw [hstep] at h
      obtain rfl : v₁ = v := Option.some_inj.mp h
      exact List.mem_cons_self _ _
    · simp only [mapFind?, if_neg hk] at h
      exact List.mem_cons_of_mem _ (ih h)

theorem countKey_eq_zero {k : K} {l : List (K × V)}
    (h : k ∉ l.map Prod.fst) : countKey k l = 0 := by
  induction l with
  | nil => simp [countKey]
  | cons e rest ih =>
    obtain ⟨k₁, v₁⟩ := e
    simp only [List.map_cons, List.mem_cons, not_or] at h
    have hne : ¬ (k₁ = k) := fun hh => h.1 hh.symm
    have htail : countKey k rest = 0 := by
      have h₂ : k ∉ rest.map Prod.fst := h.2
      simp only [List.map_cons, List.mem_cons, not_or] at ih ⊢
      exact ih h₂
    simp [countKey, List.filter_cons, hne] at htail ⊢
    exact htail

theorem countKey_mapInsert_self (k : K) (v : V) {l : List (K × V)}
    (h : (l.map Prod.fst).Nodup) : countKey k (mapInsert k v l) = 1 := by
  induction l with
  | nil => simp [countKey, mapInsert, List.filter_cons]
  | cons e rest ih =>
    obtain ⟨k₁, v₁⟩ := e
    simp only [List.map_cons, List.nodup_cons] at h
    by_cases hk : k₁ = k
    · subst hk
      have hz : countKey k₁ rest = 0 := countKey_eq_zero h.1
      simp only [mapInsert, if_pos rfl]
      simp [countKey, List.filter_cons] at hz ⊢
      exact hz
    · have htail := ih h.2
      simp only [mapInsert, if_neg hk]
      simp [countKey, List.filter_cons, hk] at htail ⊢
      exact htail

theorem mapInsert_keys_nodup (k : K) (v : V) {l : List (K × V)}
    (h : (l.map Prod.fst).Nodup) : ((mapInsert k v l).map Prod.fst).Nodup := by
  induction l with
  | nil => simp [mapInsert]
  | cons e rest ih =>
    obtain ⟨k₁, v₁⟩ := e
    simp only [List.map_cons, List.nodup_cons] at h
    by_cases hk : k₁ = k
    · subst hk
      have hstep : mapInsert k₁ v ((k₁, v₁) :: rest) = (k₁, v) :: rest := by simp [mapInsert]
      rw [hstep, List.map_cons]
      exact List.nodup_cons.mpr h
    · simp only [mapInsert, if_neg hk, List.map_cons, List.nodup_cons]
      refine ⟨?_, ih h.2⟩
      intro hmem
      by_cases hk₁ : k₁ ∈ rest.map Prod.fst
      · exact h.1 hk₁
      · have hnone : mapFind? k₁ rest = none := (mapFind?_eq_none_iff _ _).mpr hk₁
        have heq : mapFind? k₁ (mapInsert k v rest) = mapFind? k₁ rest :=
          mapFind?_insert_ne hk v rest
        rw [hnone] at heq
        exact ((mapFind?_eq_none_iff _ _).mp heq) hmem

end MapLemmas

section AdvanceLemmas

theorem advance_to_some_elim {s : InputSession} {t : Time} {s₁ : InputSession}
    (h : s.advance_to t = some s₁) : s.time ≤ t ∧ s₁ = { s with time := t } := by
  unfold InputSession.advance_to at h
  split at h
  · exact ⟨by assumption, (Option.some_inj.mp h).symm⟩
  · exact absurd h (by simp)

theorem advance_by_some_elim {g : TraceHandle} {f : List Time} {g₁ : TraceHandle}
    (h : g.advance_by f = some g₁) :
    frontierLE g.advanceFrontier f = true ∧ g₁ = { g with advanceFrontier := f } := by
  unfold TraceHandle.advance_by at h
  split at h
  · exact ⟨by assumption, (Option.some_inj.mp h).symm⟩
  · exact absurd h (by simp)

theorem advanceSessions_some_spec {t : Time} {l l₁ : List (String × InputSession)}
    (h : advanceSessions t l = some l₁) :
    l₁.map Prod.fst = l.map Prod.fst ∧
    (∀ e ∈ l₁, e.2.time = t ∧ e.2.buffer = []) ∧
    List.Forall₂ (fun e e₁ : String × InputSession =>
      e₁.2.flushed = e.2.flushed ++ e.2.buffer) l l₁ := by
  induction l generalizing l₁ with
  | nil =>
    simp only [advanceSessions, Option.some_inj] at h
    subst h
    simp
  | cons e rest ih =>
    obtain ⟨name, s⟩ := e
    simp only [advanceSessions, Option.bind_eq_some, Option.map_eq_some'] at h
    obtain ⟨s₁, hs₁, rest₁, hrest₁, hl₁⟩ := h
    obtain ⟨_, rfl⟩ := advance_to_some_elim hs₁
    obtain ⟨hkeys, hmem, hflush⟩ := ih hrest₁
    subst hl₁
    refine ⟨by simp [hkeys], ?_, ?_⟩
    · intro e₁ he₁
      rcases List.mem_cons.mp he₁ with he₁ | he₁
      · subst he₁
        exact ⟨rfl, rfl⟩
      · exact hmem e₁ he₁
    · exact List.Forall₂.cons (by simp [InputSession.flush]) hflush

theorem advanceSessions_eq_of_le {t : Time} {l : List (String × InputSession)}
    (h : ∀ e ∈ l, e.2.time ≤ t) :
    advanceSessions t l =
      some (l.map (fun e => (e.1, InputSession.flush { e.2 with time := t }))) := by
  induction l with
  | nil => simp [advanceSessions]
  | cons e rest ih =>
    obtain ⟨name, s⟩ := e
    have hhead : s.time ≤ t := h (name, s) (List.mem_cons_self _ _)
    have htail := ih (fun e he => h e (List.mem_cons_of_mem _ he))
    simp [advanceSessions, InputSession.advance_to, hhead, htail]

theorem advanceHandles_some_spec {K : Type} {f : List Time} {l l₁ : List (K × TraceHandle)}
    (h : advanceHandles f l = some l₁) :
    l₁.map Prod.fst = l.map Prod.fst ∧
    (∀ e ∈ l₁, e.2.advanceFrontier = f) := by
  induction l generalizing l₁ with
  | nil =>
    simp only [advanceHandles, Option.some_inj] at h
    subst h
    simp
  | cons e rest ih =>
    obtain ⟨k, g⟩ := e
    simp only [advanceHandles, Option.bind_eq_some, Option.map_eq_some'] at h
    obtain ⟨g₁, hg₁, rest₁, hrest₁, hl₁⟩ := h
    obtain ⟨_, rfl⟩ := advance_by_some_elim hg₁
    obtain ⟨hkeys, hmem⟩ := ih hrest₁
    subst hl₁
    refine ⟨by simp [hkeys], ?_⟩
    intro e₁ he₁
    rcases List.mem_cons.mp he₁ with he₁ | he₁
    · subst he₁
      rfl
    · exact hmem e₁ he₁

theorem advanceHandles_find? {K : Type} [DecidableEq K] {f : List Time}
    {l l₁ : List (K × TraceHandle)} (h : advanceHandles f l = some l₁) (k : K) :
    mapFind? k l₁ = (mapFind? k l).bind (fun g => g.advance_by f) := by
  induction l generalizing l₁ with
  | nil =>
    simp only [advanceHandles, Option.some_inj] at h
    subst h
    simp [mapFind?]
  | cons e rest ih =>
    obtain ⟨k₁, g⟩ := e
    simp only [advanceHandles, Option.bind_eq_some, Option.map_eq_some'] at h
    obtain ⟨g₁, hg₁, rest₁, hrest₁, hl₁⟩ := h
    subst hl₁
    by_cases hk : k₁ = k
    · simp [mapFind?, hk, hg₁]
    · simp [mapFind?, hk, ih hrest₁]

theorem advanceHandles_eq_of {K : Type} {f : List Time} {l : List (K × TraceHandle)}
    (h : ∀ e ∈ l, frontierLE e.2.advanceFrontier f = true) :
    advanceHandles f l =
      some (l.map (fun e => (e.1, { e.2 with advanceFrontier := f }))) := by
  induction l with
  | nil => simp [advanceHandles]
  | cons e rest ih =>
    obtain ⟨k, g⟩ := e
    have hhead : frontierLE g.advanceFrontier f = true := h (k, g) (List.mem_cons_self _ _)
    have htail := ih (fun e he => h e (List.mem_cons_of_mem _ he))
    simp [advanceHandles, TraceHandle.advance_by, hhead, htail]

theorem advanceKeyedOuter_some_spec {f : List Time}
    {l l₁ : List (Plan × List (List Nat × TraceHandle))}
    (h : advanceKeyedOuter f l = some l₁) :
    l₁.map Prod.fst = l.map Prod.fst ∧
    (∀ e ∈ l₁, ∀ ke ∈ e.2, ke.2.advanceFrontier = f) := by
  induction l generalizing l₁ with
  | nil =>
    simp only [advanceKeyedOuter, Option.some_inj] at h
    subst h
    simp
  | cons e rest ih =>
    obtain ⟨p, inner⟩ := e
    simp only [advanceKeyedOuter, Option.bind_eq_some, Option.map_eq_some'] at h
    obtain ⟨inner₁, hinner₁, rest₁, hrest₁, hl₁⟩ := h
    obtain ⟨hkeys, hmem⟩ := ih hrest₁
    subst hl₁
    refine ⟨by simp [hkeys], ?_⟩
    intro e₁ he₁
    rcases List.mem_cons.mp he₁ with he₁ | he₁
    · subst he₁
      exact (advanceHandles_some_spec hinner₁).2
    · exact hmem e₁ he₁

theorem advanceKeyedOuter_find? {f : List Time}
    {l l₁ : List (Plan × List (List Nat × TraceHandle))}
    (h : advanceKeyedOuter f l = some l₁) (p : Plan) :
    mapFind? p l₁ = (mapFind? p l).bind (advanceHandles f) := by
  induction l generalizing l₁ with
  | nil =>
    simp only [advanceKeyedOuter, Option.some_inj] at h
    subst h
    simp [mapFind?]
  | cons e rest ih =>
    obtain ⟨p₁, inner⟩ := e
    simp only [advanceKeyedOuter, Option.bind_eq_some, Option.map_eq_some'] at h
    obtain ⟨inner₁, hinner₁, rest₁, hrest₁, hl₁⟩ := h
    subst hl₁
    by_cases hp : p₁ = p
    · simp [mapFind?, hp, hinner₁]
    · simp [mapFind?, hp, ih hrest₁]

theorem advanceKeyedOuter_eq_of {f : List Time}
    {l : List (Plan × List (List Nat × TraceHandle))}
    (h : ∀ e ∈ l, ∀ ke ∈ e.2, frontierLE ke.2.advanceFrontier f = true) :
    advanceKeyedOuter f l =
      some (l.map (fun e =>
        (e.1, e.2.map (fun ke => (ke.1, { ke.2 with advanceFrontier := f }))))) := by
  induction l with
  | nil => simp [advanceKeyedOuter]
  | cons e rest ih =>
    obtain ⟨p, inner⟩ := e
    have hhead := advanceHandles_eq_of (h (p, inner) (List.mem_cons_self _ _))
    have htail := ih (fun e he => h e (List.mem_cons_of_mem _ he))
    simp [advanceKeyedOuter, hhead, htail]

theorem frontierLE_singleton_of_le {a b : Time} (h : a ≤ b) :
    frontierLE [a] [b] = true := by
  simp [frontierLE, h]

end AdvanceLemmas

section ManagerAdvanceLemmas

theorem manager_advance_some_elim {m m₁ : Manager} {t : Time}
    (h : m.advance_time t = some m₁) :
    ∃ sessions₁ inputs₁ arrangements₁,
      advanceSessions t m.inputs.sessions = some sessions₁ ∧
      advanceHandles [t] m.traces.inputs = some inputs₁ ∧
      advanceKeyedOuter [t] m.traces.arrangements = some arrangements₁ ∧
      m₁ = { m with inputs := ⟨sessions₁⟩, traces := ⟨inputs₁, arrangements₁⟩ } := by
  simp only [Manager.advance_time, InputManager.advance_time, TraceManager.advance_time,
    Option.bind_eq_some, Option.map_eq_some'] at h
  obtain ⟨im₁, ⟨sessions₁, hsessions, him⟩, tm₁, ⟨inputs₁, hinputs, arrangements₁, harr, htm⟩, hm⟩ := h
  subst him
  subst htm
  subst hm
  exact ⟨sessions₁, inputs₁, arrangements₁, hsessions, hinputs, harr, rfl⟩

theorem manager_advance_some_atTime {m m₁ : Manager} {t : Time}
    (h : m.advance_time t = some m₁) : AtTime m₁ t := by
  obtain ⟨sessions₁, inputs₁, arrangements₁, hsessions, hinputs, harr, hm⟩ :=
    manager_advance_some_elim h
  subst hm
  refine ⟨?_, ?_, ?_⟩
  · intro e he
    exact ((advanceSessions_some_spec hsessions).2.1 e he).1
  · intro e he
    exact (advanceHandles_some_spec hinputs).2 e he
  · intro e he ke hke
    exact (advanceKeyedOuter_some_spec harr).2 e he ke hke

theorem atTime_advance_eq_some {m : Manager} {t₁ t₂ : Time}
    (h : AtTime m t₁) (hle : t₁ ≤ t₂) :
    ∃ m₂, m.advance_time t₂ = some m₂ := by
  obtain ⟨hs, hi, ha⟩ := h
  have hsessions := advanceSessions_eq_of_le
    (l := m.inputs.sessions) (t := t₂)
    (fun e he => by rw [hs e he]; exact hle)
  have hinputs := advanceHandles_eq_of
    (l := m.traces.inputs) (f := [t₂])
    (fun e he => by rw [hi e he]; exact frontierLE_singleton_of_le hle)
  have harr := advanceKeyedOuter_eq_of
    (l := m.traces.arrangements) (f := [t₂])
    (fun e he ke hke => by rw [ha e he ke hke]; exact frontierLE_singleton_of_le hle)
  simp only [Manager.advance_time, InputManager.advance_time, TraceManager.advance_time,
    hsessions, hinputs, harr, Option.some_bind, Option.map_some']
  exact ⟨_, rfl⟩

theorem atTime_advance_seq_isSome {m : Manager} {t₀ : Time} {ts : List Time}
    (h : AtTime m t₀) (hchain : List.Chain (· ≤ ·) t₀ ts) :
    (m.advance_seq ts).isSome := by
  induction ts generalizing m t₀ with
  | nil => simp [Manager.advance_seq]
  | cons t₁ rest ih =>
    rcases List.chain_cons.mp hchain with ⟨hle, hchain₁⟩
    obtain ⟨m₁, hm₁⟩ := atTime_advance_eq_some h hle
    have hat₁ : AtTime m₁ t₁ := manager_advance_some_atTime hm₁
    simp only [Manager.advance_seq, hm₁, Option.some_bind]
    exact ih hat₁ hchain₁

theorem advanceSessions_none_of {t : Time} {l : List (String × InputSession)}
    (h : ∃ e ∈ l, ¬ e.2.time ≤ t) : advanceSessions t l = none := by
  induction l with
  | nil => simp at h
  | cons e rest ih =>
    obtain ⟨name, s⟩ := e
    obtain ⟨e₁, he₁, hviol⟩ := h
    rcases List.mem_cons.mp he₁ with he₁ | he₁
    · subst he₁
      simp [advanceSessions, InputSession.advance_to, hviol]
    · cases hadv : s.advance_to t with
      | none => simp [advanceSessions, hadv]
      | some s₁ => simp [advanceSessions, hadv, ih ⟨e₁, he₁, hviol⟩]

theorem advanceHandles_none_of {K : Type} {f : List Time} {l : List (K × TraceHandle)}
    (h : ∃ e ∈ l, frontierLE e.2.advanceFrontier f = false) : advanceHandles f l = none := by
  induction l with
  | nil => simp at h
  | cons e rest ih =>
    obtain ⟨k, g⟩ := e
    obtain ⟨e₁, he₁, hviol⟩ := h
    rcases List.mem_cons.mp he₁ with he₁ | he₁
    · subst he₁
      simp only [advanceHandles, TraceHandle.advance_by]
      rw [hviol]
      simp
    · cases hadv : g.advance_by f with
      | none => simp [advanceHandles, hadv]
      | some g₁ => simp [advanceHandles, hadv, ih ⟨e₁, he₁, hviol⟩]

theorem manager_advance_none_of_session {m : Manager} {t : Time}
    (h : ∃ e ∈ m.inputs.sessions, ¬ e.2.time ≤ t) : m.advance_time t = none := by
  simp [Manager.advance_time, InputManager.advance_time, advanceSessions_none_of h]

theorem traceManager_advance_none_of_unkeyed {tm : TraceManager} {t : Time}
    (h : ∃ e ∈ tm.inputs, frontierLE e.2.advanceFrontier [t] = false) :
    tm.advance_time t = none := by
  simp [TraceManager.advance_time, advanceHandles_none_of h]

end ManagerAdvanceLemmas

section SetGetLemmas

theorem get_unkeyed_set_unkeyed_self (tm : TraceManager) (p : Plan) (h : TraceHandle) :
    (tm.set_unkeyed p h).get_unkeyed p = some (h.distinguish_since []) := by
  simp [TraceManager.set_unkeyed, TraceManager.get_unkeyed, TraceHandle.clone,
    mapFind?_insert_self]

theorem get_unkeyed_set_unkeyed_ne {p' p : Plan} (hne : p' ≠ p)
    (tm : TraceManager) (h : TraceHandle) :
    (tm.set_unkeyed p h).get_unkeyed p' = tm.get_unkeyed p' := by
  simp [TraceManager.set_unkeyed, TraceManager.get_unkeyed, mapFind?_insert_ne hne]

theorem get_keyed_set_unkeyed (tm : TraceManager) (p : Plan) (h : TraceHandle)
    (p' : Plan) (keys' : List Nat) :
    (tm.set_unkeyed p h).get_keyed p' keys' = tm.get_keyed p' keys' := rfl

theorem get_unkeyed_set_keyed (tm : TraceManager) (p : Plan) (keys : List Nat)
    (h : TraceHandle) (p' : Plan) :
    (tm.set_keyed p keys h).get_unkeyed p' = tm.get_unkeyed p' := rfl

theorem get_keyed_set_keyed_self (tm : TraceManager) (p : Plan) (keys : List Nat)
    (h : TraceHandle) :
    (tm.set_keyed p keys h).get_keyed p keys = some (h.distinguish_since []) := by
  simp [TraceManager.set_keyed, TraceManager.get_keyed, TraceHandle.clone,
    mapFind?_insert_self]

theorem get_keyed_set_keyed_ne {p' p : Plan} {keys' keys : List Nat}
    (hne : (p', keys') ≠ (p, keys)) (tm : TraceManager) (h : TraceHandle) :
    (tm.set_keyed p keys h).get_keyed p' keys' = tm.get_keyed p' keys' := by
  by_cases hp : p' = p
  · subst hp
    have hk : keys' ≠ keys := fun hk => hne (by rw [hk])
    simp only [TraceManager.set_keyed, TraceManager.get_keyed, mapFind?_insert_self,
      Option.some_bind]
    rw [mapFind?_insert_ne hk]
    cases hfind : mapFind? p' tm.arrangements with
    | none => simp [hfind, mapFind?]
    | some inner => simp [hfind]
  · simp only [TraceManager.set_keyed, TraceManager.get_keyed]
    rw [mapFind?_insert_ne hp]

theorem traceManager_advance_some_elim {tm tm₁ : TraceManager} {t : Time}
    (h : tm.advance_time t = some tm₁) :
    ∃ inputs₁ arrangements₁,
      advanceHandles [t] tm.inputs = some inputs₁ ∧
      advanceKeyedOuter [t] tm.arrangements = some arrangements₁ ∧
      tm₁ = ⟨inputs₁, arrangements₁⟩ := by
  simp only [TraceManager.advance_time, Option.bind_eq_some, Option.map_eq_some'] at h
  obtain ⟨inputs₁, hinputs, arrangements₁, harr, htm⟩ := h
  exact ⟨inputs₁, arrangements₁, hinputs, harr, htm.symm⟩

theorem get_unkeyed_none_advance {tm tm₁ : TraceManager} {t : Time} {p : Plan}
    (h : tm.advance_time t = some tm₁) (hnone : tm.get_unkeyed p = none) :
    tm₁.get_unkeyed p = none := by
  obtain ⟨inputs₁, arrangements₁, hinputs, _, htm⟩ := traceManager_advance_some_elim h
  subst htm
  simp only [TraceManager.get_unkeyed, Option.map_eq_none'] at hnone ⊢
  rw [advanceHandles_find? hinputs, hnone]
  rfl

theorem get_keyed_none_advance {tm tm₁ : TraceManager} {t : Time} {p : Plan}
    {keys : List Nat} (h : tm.advance_time t = some tm₁)
    (hnone : tm.get_keyed p keys = none) : tm₁.get_keyed p keys = none := by
  obtain ⟨inputs₁, arrangements₁, _, harr, htm⟩ := traceManager_advance_some_elim h
  subst htm
  simp only [TraceManager.get_keyed] at hnone ⊢
  rw [advanceKeyedOuter_find? harr]
  cases hfind : mapFind? p tm.arrangements with
  | none => simp
  | some inner =>
    rw [hfind] at hnone
    simp only [Option.some_bind] at hnone ⊢
    cases hadv : advanceHandles [t] inner with
    | none => simp
    | some inner₁ =>
      simp only [Option.some_bind]
      have hkeys := (advanceHandles_some_spec hadv).1
      simp only [Option.map_eq_none'] at hnone ⊢
      rw [mapFind?_eq_none_iff] at hnone ⊢
      rw [hkeys]
      exact hnone

end SetGetLemmas

section RunLemmas

theorem manager_advance_traces_some {m m₁ : Manager} {t : Time}
    (h : m.advance_time t = some m₁) :
    m.traces.advance_time t = some m₁.traces := by
  obtain ⟨s₁, i₁, a₁, _, hi, ha, hm⟩ := manager_advance_some_elim h
  subst hm
  simp [TraceManager.advance_time, hi, ha]

theorem exec_preserves_unkeyed_none {m m₁ : Manager} {op : Op} {p : Plan}
    (hex : m.exec op = some m₁) (hnp : p ∉ op.unkeyedPlans)
    (h : m.traces.get_unkeyed p = none) : m₁.traces.get_unkeyed p = none := by
  cases op with
  | insertInput name input trace =>
    simp only [Manager.exec, Option.some_inj] at hex
    subst hex
    simp only [Op.unkeyedPlans, List.mem_singleton] at hnp
    show (m.traces.set_unkeyed (Plan.source name) trace).get_unkeyed p = none
    rw [get_unkeyed_set_unkeyed_ne hnp]
    exact h
  | advanceTime t =>
    simp only [Manager.exec] at hex
    exact get_unkeyed_none_advance (manager_advance_traces_some hex) h
  | setUnkeyed p₁ h₁ =>
    simp only [Manager.exec, Option.some_inj] at hex
    subst hex
    simp only [Op.unkeyedPlans, List.mem_singleton] at hnp
    show (m.traces.set_unkeyed p₁ h₁).get_unkeyed p = none
    rw [get_unkeyed_set_unkeyed_ne hnp]
    exact h
  | setKeyed p₁ keys₁ h₁ =>
    simp only [Manager.exec, Option.some_inj] at hex
    subst hex
    exact h
  | getUnkeyed p₁ =>
    simp only [Manager.exec, Option.some_inj] at hex
    subst hex
    exact h
  | getKeyed p₁ keys₁ =>
    simp only [Manager.exec, Option.some_inj] at hex
    subst hex
    exact h
  | shutdown =>
    simp only [Manager.exec, Option.some_inj] at hex
    subst hex
    simp [Manager.shutdown, TraceManager.get_unkeyed, mapFind?]
  | publishTimely operates channels schedule messages =>
    simp only [Manager.exec, Option.some_inj] at hex
    subst hex
    simp only [Op.unkeyedPlans, List.mem_cons, List.mem_singleton, not_or] at hnp
    obtain ⟨h₁, h₂, h₃, h₄⟩ := hnp
    show ((((m.traces.set_unkeyed (Plan.source "logs/timely/operates") operates).set_unkeyed
      (Plan.source "logs/timely/channels") channels).set_unkeyed
      (Plan.source "logs/timely/schedule") schedule).set_unkeyed
      (Plan.source "logs/timely/messages") messages).get_unkeyed p = none
    rw [get_unkeyed_set_unkeyed_ne h₄.1, get_unkeyed_set_unkeyed_ne h₃,
      get_unkeyed_set_unkeyed_ne h₂, get_unkeyed_set_unkeyed_ne h₁]
    exact h
  | publishDifferential batch merge =>
    simp only [Manager.exec, Option.some_inj] at hex
    subst hex
    simp only [Op.unkeyedPlans, List.mem_cons, List.mem_singleton, not_or] at hnp
    obtain ⟨h₁, h₂⟩ := hnp
    show ((m.traces.set_unkeyed (Plan.source "logs/differential/arrange/batch") batch).set_unkeyed
      (Plan.source "logs/differential/arrange/merge") merge).get_unkeyed p = none
    rw [get_unkeyed_set_unkeyed_ne h₂.1, get_unkeyed_set_unkeyed_ne h₁]
    exact h

theorem exec_preserves_keyed_none {m m₁ : Manager} {op : Op} {p : Plan} {keys : List Nat}
    (hex : m.exec op = some m₁) (hnp : (p, keys) ∉ op.keyedPairs)
    (h : m.traces.get_keyed p keys = none) : m₁.traces.get_keyed p keys = none := by
  cases op with
  | insertInput name input trace =>
    simp only [Manager.exec, Option.some_inj] at hex
    subst hex
    exact h
  | advanceTime t =>
    simp only [Manager.exec] at hex
    exact get_keyed_none_advance (manager_advance_traces_some hex) h
  | setUnkeyed p₁ h₁ =>
    simp only [Manager.exec, Option.some_inj] at hex
    subst hex
    exact h
  | setKeyed p₁ keys₁ h₁ =>
    simp only [Manager.exec, Option.some_inj] at hex
    subst hex
    simp only [Op.keyedPairs, List.mem_singleton] at hnp
    show (m.traces.set_keyed p₁ keys₁ h₁).get_keyed p keys = none
    rw [get_keyed_set_keyed_ne hnp]
    exact h
  | getUnkeyed p₁ =>
    simp only [Manager.exec, Option.some_inj] at hex
    subst hex
    exact h
  | getKeyed p₁ keys₁ =>
    simp only [Manager.exec, Option.some_inj] at hex
    subst hex
    exact h
  | shutdown =>
    simp only [Manager.exec, Option.some_inj] at hex
    subst hex
    simp [Manager.shutdown, TraceManager.get_keyed, mapFind?]
  | publishTimely operates channels schedule messages =>
    simp only [Manager.exec, Option.some_inj] at hex
    subst hex
    exact h
  | publishDifferential batch merge =>
    simp only [Manager.exec, Option.some_inj] at hex
    subst hex
    exact h

theorem run_preserves_unkeyed_none {ops : List Op} {m m₁ : Manager} {p : Plan}
    (hrun : m.run ops = some m₁) (hnp : ∀ op ∈ ops, p ∉ op.unkeyedPlans)
    (h : m.traces.get_unkeyed p = none) : m₁.traces.get_unkeyed p = none := by
  induction ops generalizing m with
  | nil =>
    simp only [Manager.run, Option.some_inj] at hrun
    subst hrun
    exact h
  | cons op rest ih =>
    simp only [Manager.run, Option.bind_eq_some] at hrun
    obtain ⟨m₂, hex, hrest⟩ := hrun
    exact ih hrest (fun o ho => hnp o (List.mem_cons_of_mem _ ho))
      (exec_preserves_unkeyed_none hex (hnp op (List.mem_cons_self _ _)) h)

theorem run_preserves_keyed_none {ops : List Op} {m m₁ : Manager} {p : Plan}
    {keys : List Nat} (hrun : m.run ops = some m₁)
    (hnp : ∀ op ∈ ops, (p, keys) ∉ op.keyedPairs)
    (h : m.traces.get_keyed p keys = none) : m₁.traces.get_keyed p keys = none := by
  induction ops generalizing m with
  | nil =>
    simp only [Manager.run, Option.some_inj] at hrun
    subst hrun
    exact h
  | cons op rest ih =>
    simp only [Manager.run, Option.bind_eq_some] at hrun
    obtain ⟨m₂, hex, hrest⟩ := hrun
    exact ih hrest (fun o ho => hnp o (List.mem_cons_of_mem _ ho))
      (exec_preserves_keyed_none hex (hnp op (List.mem_cons_self _ _)) h)

end RunLemmas

section DemuxLemmas

theorem demuxTimely_eq (batch : List (Time × Nat × TimelyEvent)) :
    demuxTimely batch =
      (timelySpecOutput 0 batch, timelySpecOutput 1 batch,
       timelySpecOutput 2 batch, timelySpecOutput 3 batch) := by
  induction batch with
  | nil => rfl
  | cons e rest ih =>
    obtain ⟨t, w, d⟩ := e
    cases d with
    | operates payload =>
      simp [demuxTimely, ih, timelySpecOutput, TimelyEvent.category, List.filterMap_cons]
    | channels payload =>
      simp [demuxTimely, ih, timelySpecOutput, TimelyEvent.category, List.filterMap_cons]
    | schedule payload =>
      simp [demuxTimely, ih, timelySpecOutput, TimelyEvent.category, List.filterMap_cons]
    | messages payload =>
      simp [demuxTimely, ih, timelySpecOutput, TimelyEvent.category, List.filterMap_cons]
    | other payload =>
      simp [demuxTimely, ih, timelySpecOutput, TimelyEvent.category, List.filterMap_cons]

theorem demuxDifferential_eq (batch : List (Time × Nat × DifferentialEvent)) :
    demuxDifferential batch =
      (differentialSpecOutput 0 batch, differentialSpecOutput 1 batch) := by
  induction batch with
  | nil => rfl
  | cons e rest ih =>
    obtain ⟨t, w, d⟩ := e
    cases d with
    | batch payload =>
      simp [demuxDifferential, ih, differentialSpecOutput, DifferentialEvent.category,
        List.filterMap_cons]
    | merge payload =>
      simp [demuxDifferential, ih, differentialSpecOutput, DifferentialEvent.category,
        List.filterMap_cons]
    | other payload =>
      simp [demuxDifferential, ih, differentialSpecOutput, DifferentialEvent.category,
        List.filterMap_cons]

end DemuxLemmas

/-- Claim C1: after `set_unkeyed(p, T)`, `get_unkeyed(p')` for any plan `p'`
structurally equal to `p` returns `some` handle aliasing the same underlying
trace state as `T` (equal `traceId`, i.e. a clone, not a copy); likewise for
`set_keyed`/`get_keyed` with an equal column sequence. -/
theorem cache_identity_aliasing (tm : TraceManager) (p p₁ : Plan)
    (keys keys₁ : List Nat) (h hk : TraceHandle)
    (hp : p₁ = p) (hkeys : keys₁ = keys) :
    (∃ g, (tm.set_unkeyed p h).get_unkeyed p₁ = some g ∧ g.traceId = h.traceId) ∧
    (∃ g, (tm.set_keyed p keys hk).get_keyed p₁ keys₁ = some g ∧ g.traceId = hk.traceId) := by
  subst hp
  subst hkeys
  exact ⟨⟨_, get_unkeyed_set_unkeyed_self tm p₁ h, rfl⟩,
    ⟨_, get_keyed_set_keyed_self tm p₁ keys₁ hk, rfl⟩⟩

/-- Witness for C1 at a concrete plan, column sequence and handle. -/
theorem cache_identity_aliasing_witness :
    (∃ g, (TraceManager.new.set_unkeyed (Plan.source "a") handleEx).get_unkeyed
      (Plan.source "a") = some g ∧ g.traceId = handleEx.traceId) ∧
    (∃ g, (TraceManager.new.set_keyed (Plan.source "a") [0] handleEx).get_keyed
      (Plan.source "a") [0] = some g ∧ g.traceId = handleEx.traceId) :=
  cache_identity_aliasing TraceManager.new (Plan.source "a") (Plan.source "a")
    [0] [0] handleEx handleEx rfl rfl

/-- Claim C2: a successful `Manager::advance_time(t)` advances every
registered session (its local time becomes `t` and its buffer is flushed,
the pending updates moving to the engine-visible flushed list) and advances
the horizon of every cached trace, unkeyed and keyed, to `[t]`; the name maps
of all three caches are preserved, so no owned entity is skipped. -/
theorem advance_time_uniform (m m₁ : Manager) (t : Time)
    (h : m.advance_time t = some m₁) :
    m₁.inputs.sessions.map Prod.fst = m.inputs.sessions.map Prod.fst ∧
    (∀ e ∈ m₁.inputs.sessions, e.2.time = t ∧ e.2.buffer = []) ∧
    List.Forall₂ (fun e e₁ : String × InputSession =>
      e₁.2.flushed = e.2.flushed ++ e.2.buffer) m.inputs.sessions m₁.inputs.sessions ∧
    m₁.traces.inputs.map Prod.fst = m.traces.inputs.map Prod.fst ∧
    (∀ e ∈ m₁.traces.inputs, e.2.advanceFrontier = [t]) ∧
    m₁.traces.arrangements.map Prod.fst = m.traces.arrangements.map Prod.fst ∧
    (∀ e ∈ m₁.traces.arrangements, ∀ ke ∈ e.2, ke.2.advanceFrontier = [t]) := by
  obtain ⟨sessions₁, inputs₁, arrangements₁, hs, hi, ha, hm⟩ := manager_advance_some_elim h
  subst hm
  obtain ⟨hskeys, hsmem, hsflush⟩ := advanceSessions_some_spec hs
  obtain ⟨hikeys, himem⟩ := advanceHandles_some_spec hi
  obtain ⟨hakeys, hamem⟩ := advanceKeyedOuter_some_spec ha
  exact ⟨hskeys, hsmem, hsflush, hikeys, himem, hakeys, hamem⟩

/-- Witness for C2: the concrete manager advanced to time 3. -/
theorem advance_time_uniform_witness :
    managerEx.advance_time 3 = some managerExAdv ∧
    (∀ e ∈ managerExAdv.inputs.sessions, e.2.time = 3 ∧ e.2.buffer = []) ∧
    (∀ e ∈ managerExAdv.traces.inputs, e.2.advanceFrontier = [3]) ∧
    (∀ e ∈ managerExAdv.traces.arrangements, ∀ ke ∈ e.2, ke.2.advanceFrontier = [3]) := by
  have h := advance_time_uniform managerEx managerExAdv 3 (by decide)
  exact ⟨by decide, h.2.1, h.2.2.2.2.1, h.2.2.2.2.2.2⟩

/-- Claim C3: both demultiplexers are true partitions — each output equals
the in-order selection of exactly the input events of its category, emitted
at the event's own logical time with multiplicity `+1`; an event of any
unmatched category (`category` 4 for the execution engine, 2 for the
incremental engine) satisfies no output's selector and so appears in no
output. -/
theorem demux_partition_complete (batch : List (Time × Nat × TimelyEvent))
    (dbatch : List (Time × Nat × DifferentialEvent)) :
    demuxTimely batch =
      (timelySpecOutput 0 batch, timelySpecOutput 1 batch,
       timelySpecOutput 2 batch, timelySpecOutput 3 batch) ∧
    demuxDifferential dbatch =
      (differentialSpecOutput 0 dbatch, differentialSpecOutput 1 dbatch) :=
  ⟨demuxTimely_eq batch, demuxDifferential_eq dbatch⟩

/-- Claim C4: `set_unkeyed` and `set_keyed` store the installed clone with
its retained-history horizon (`distinguish_since` frontier) forced to the
empty frontier: the cached entry is exactly the given handle with
`throughFrontier := []`. -/
theorem set_forces_empty_horizon (tm : TraceManager) (p : Plan) (keys : List Nat)
    (h hk : TraceHandle) :
    (tm.set_unkeyed p h).get_unkeyed p = some { h with throughFrontier := [] } ∧
    (tm.set_keyed p keys hk).get_keyed p keys = some { hk with throughFrontier := [] } :=
  ⟨get_unkeyed_set_unkeyed_self tm p h, get_keyed_set_keyed_self tm p keys hk⟩

/-- Claim C5: under the `HashMap` unique-key discipline, a fixed plan (and,
keyed, a fixed column sequence) holds at most one cached trace — after a
`set` its key has exactly one binding — and a second `set` under the same
key, or a second `insert_input` under the same name, replaces the first
registration (silent overwrite, matching the flagged open question). -/
theorem reregistration_replaces (tm : TraceManager) (m : Manager) (p : Plan)
    (keys : List Nat) (h₁ h₂ : TraceHandle) (name : String) (s₁ s₂ : InputSession)
    (tr₁ tr₂ : TraceHandle)
    (hnodupU : (tm.inputs.map Prod.fst).Nodup)
    (hnodupO : (tm.arrangements.map Prod.fst).Nodup)
    (hnodupI : ∀ e ∈ tm.arrangements, (e.2.map Prod.fst).Nodup) :
    ((tm.set_unkeyed p h₁).set_unkeyed p h₂).get_unkeyed p = some (h₂.distinguish_since []) ∧
    ((tm.set_keyed p keys h₁).set_keyed p keys h₂).get_keyed p keys
      = some (h₂.distinguish_since []) ∧
    countKey p (tm.set_unkeyed p h₂).inputs = 1 ∧
    countKey p (tm.set_keyed p keys h₂).arrangements = 1 ∧
    (∀ inner, mapFind? p (tm.set_keyed p keys h₂).arrangements = some inner →
      countKey keys inner = 1) ∧
    mapFind? name ((m.insert_input name s₁ tr₁).insert_input name s₂ tr₂).inputs.sessions
      = some s₂ ∧
    ((m.insert_input name s₁ tr₁).insert_input name s₂ tr₂).traces.get_unkeyed
      (Plan.source name) = some (tr₂.distinguish_since []) := by
  have hnodup₀ : (((mapFind? p tm.arrangements).getD []).map Prod.fst).Nodup := by
    cases hfind : mapFind? p tm.arrangements with
    | none => simp
    | some i =>
      simp only [Option.getD_some]
      exact hnodupI (p, i) (mapFind?_some_mem hfind)
  refine ⟨get_unkeyed_set_unkeyed_self _ p h₂, get_keyed_set_keyed_self _ p keys h₂,
    ?_, ?_, ?_, ?_, ?_⟩
  · exact countKey_mapInsert_self p _ hnodupU
  · exact countKey_mapInsert_self p _ hnodupO
  · intro inner hinner
    simp only [TraceManager.set_keyed, mapFind?_insert_self, Option.some_inj] at hinner
    subst hinner
    exact countKey_mapInsert_self keys _ hnodup₀
  · show mapFind? name (mapInsert name s₂ (mapInsert name s₁ m.inputs.sessions)) = some s₂
    exact mapFind?_insert_self name s₂ _
  · exact get_unkeyed_set_unkeyed_self _ (Plan.source name) tr₂

/-- Witness for C5 at a concrete manager whose caches have distinct keys. -/
theorem reregistration_replaces_witness :
    ((managerEx.traces.set_unkeyed (Plan.source "a") ⟨1, [], []⟩).set_unkeyed
      (Plan.source "a") handleEx).get_unkeyed (Plan.source "a")
      = some (handleEx.distinguish_since []) ∧
    countKey (Plan.source "a") (managerEx.traces.set_unkeyed (Plan.source "a") handleEx).inputs
      = 1 ∧
    mapFind? "x" ((managerEx.insert_input "x" sessionEx ⟨1, [], []⟩).insert_input
      "x" sessionEx handleEx).inputs.sessions = some sessionEx := by
  have h := reregistration_replaces managerEx.traces managerEx (Plan.source "a") [0]
    ⟨1, [], []⟩ handleEx "x" sessionEx sessionEx ⟨1, [], []⟩ handleEx
    (by decide) (by decide) (by decide)
  exact ⟨h.1, h.2.2.1, h.2.2.2.2.2.1⟩

/-- Claim C6: running any call sequence from a fresh manager in which no
operation passes plan `p` to `set_unkeyed` (including the internal installs
of `insert_input` and the publish operations) leaves `get_unkeyed p = none`,
and likewise for `get_keyed` on a pair never passed to `set_keyed`; both
`get` calls take the manager immutably and leave the state unchanged, so a
miss is a normal outcome, not an error. -/
theorem miss_before_set_pure (ops : List Op) (m : Manager) (p : Plan) (keys : List Nat)
    (hrun : Manager.new.run ops = some m)
    (hu : ∀ op ∈ ops, p ∉ op.unkeyedPlans)
    (hk : ∀ op ∈ ops, (p, keys) ∉ op.keyedPairs) :
    m.traces.get_unkeyed p = none ∧
    m.traces.get_keyed p keys = none ∧
    (∀ (m₁ : Manager) (q : Plan) (ks : List Nat),
      m₁.exec (Op.getUnkeyed q) = some m₁ ∧ m₁.exec (Op.getKeyed q ks) = some m₁) := by
  refine ⟨?_, ?_, fun m₁ q ks => ⟨rfl, rfl⟩⟩
  · exact run_preserves_unkeyed_none hrun hu rfl
  · exact run_preserves_keyed_none hrun hk rfl

/-- Witness for C6: two installs under other keys leave the queried plan a
miss. -/
theorem miss_before_set_pure_witness :
    ((Manager.new.insert_input "x" sessionEx handleEx).set_keyed (Plan.source "x") [0]
      handleEx).traces.get_unkeyed (Plan.source "y") = none ∧
    ((Manager.new.insert_input "x" sessionEx handleEx).set_keyed (Plan.source "x") [0]
      handleEx).traces.get_keyed (Plan.source "y") [0] = none := by
  have h := miss_before_set_pure
    [Op.insertInput "x" sessionEx handleEx, Op.setKeyed (Plan.source "x") [0] handleEx]
    ((Manager.new.insert_input "x" sessionEx handleEx).set_keyed (Plan.source "x") [0] handleEx)
    (Plan.source "y") [0] (by decide) (by decide) (by decide)
  exact ⟨h.1, h.2.1⟩

/-- Claim C7: after `shutdown()` no session remains under any name and both
caches answer `none` for every plan and column sequence; a second
`shutdown()` leaves the state identical to the first. -/
theorem shutdown_clears_and_idempotent (m : Manager) (name : String) (p : Plan)
    (keys : List Nat) :
    mapFind? name m.shutdown.inputs.sessions = none ∧
    m.shutdown.traces.get_unkeyed p = none ∧
    m.shutdown.traces.get_keyed p keys = none ∧
    m.shutdown.shutdown = m.shutdown :=
  ⟨rfl, rfl, rfl, rfl⟩

/-- Claim C8: advancing a session or a cached trace to a time not at or
beyond its current one is a fatal precondition failure (`none`), also through
the manager's `advance_time`; after one successful advance, any monotonically
non-decreasing sequence of further advances succeeds. -/
theorem nonmonotonic_advance_fatal :
    (∀ (s : InputSession) (t : Time), ¬ s.time ≤ t → s.advance_to t = none) ∧
    (∀ (g : TraceHandle) (f : List Time), frontierLE g.advanceFrontier f = false →
      g.advance_by f = none) ∧
    (∀ (m : Manager) (t : Time), (∃ e ∈ m.inputs.sessions, ¬ e.2.time ≤ t) →
      m.advance_time t = none) ∧
    (∀ (tm : TraceManager) (t : Time),
      (∃ e ∈ tm.inputs, frontierLE e.2.advanceFrontier [t] = false) →
      tm.advance_time t = none) ∧
    (∀ (m m₀ : Manager) (t₀ : Time) (ts : List Time),
      m.advance_time t₀ = some m₀ → List.Chain (· ≤ ·) t₀ ts →
      (m₀.advance_seq ts).isSome) := by
  refine ⟨?_, ?_, ?_, ?_, ?_⟩
  · intro s t h
    simp [InputSession.advance_to, h]
  · intro g f h
    simp [TraceHandle.advance_by, h]
  · intro m t h
    exact manager_advance_none_of_session h
  · intro tm t h
    exact traceManager_advance_none_of_unkeyed h
  · intro m m₀ t₀ ts h hchain
    exact atTime_advance_seq_isSome (manager_advance_some_atTime h) hchain

/-- Witness for C8: concrete stale advances fail; the concrete manager
advances through `3 ≤ 4 ≤ 4 ≤ 9` successfully. -/
theorem nonmonotonic_advance_fatal_witness :
    InputSession.advance_to ⟨5, [], []⟩ 3 = none ∧
    TraceHandle.advance_by ⟨7, [5], []⟩ [3] = none ∧
    Manager.advance_time ⟨⟨[("x", ⟨5, [], []⟩)]⟩, ⟨[], []⟩, 0⟩ 3 = none ∧
    TraceManager.advance_time ⟨[(Plan.source "x", ⟨7, [5], []⟩)], []⟩ 3 = none ∧
    (managerExAdv.advance_seq [4, 4, 9]).isSome := by
  have h := nonmonotonic_advance_fatal
  refine ⟨h.1 _ 3 (by decide), h.2.1 _ [3] (by decide),
    h.2.2.1 _ 3 ⟨("x", ⟨5, [], []⟩), by decide, by decide⟩,
    h.2.2.2.1 _ 3 ⟨(Plan.source "x", ⟨7, [5], []⟩), by decide, by decide⟩,
    h.2.2.2.2 managerEx managerExAdv 3 [4, 4, 9] (by decide)
      (List.Chain.cons (by decide) (List.Chain.cons (by decide)
        (List.Chain.cons (by decide) List.Chain.nil)))⟩

/-- Claim C9: `publish_timely_logging` installs the four category traces
under the well-known source plans and `publish_differential_logging` the two,
through the ordinary `set_unkeyed` path, so each lookup returns the handle
with its horizon forced as for any other source. -/
theorem publish_logging_installs (m : Manager)
    (operates channels schedule messages batch merge : TraceHandle) :
    (m.publish_timely_logging operates channels schedule messages).traces.get_unkeyed
      (Plan.source "logs/timely/operates") = some (operates.distinguish_since []) ∧
    (m.publish_timely_logging operates channels schedule messages).traces.get_unkeyed
      (Plan.source "logs/timely/channels") = some (channels.distinguish_since []) ∧
    (m.publish_timely_logging operates channels schedule messages).traces.get_unkeyed
      (Plan.source "logs/timely/schedule") = some (schedule.distinguish_since []) ∧
    (m.publish_timely_logging operates channels schedule messages).traces.get_unkeyed
      (Plan.source "logs/timely/messages") = some (messages.distinguish_since []) ∧
    (m.publish_differential_logging batch merge).traces.get_unkeyed
      (Plan.source "logs/differential/arrange/batch") = some (batch.distinguish_since []) ∧
    (m.publish_differential_logging batch merge).traces.get_unkeyed
      (Plan.source "logs/differential/arrange/merge") = some (merge.distinguish_since []) := by
  refine ⟨?_, ?_, ?_, ?_, ?_, ?_⟩
  · show ((((m.traces.set_unkeyed (Plan.source "logs/timely/operates") operates).set_unkeyed
      (Plan.source "logs/timely/channels") channels).set_unkeyed
      (Plan.source "logs/timely/schedule") schedule).set_unkeyed
      (Plan.source "logs/timely/messages") messages).get_unkeyed
      (Plan.source "logs/timely/operates") = some (operates.distinguish_since [])
    rw [get_unkeyed_set_unkeyed_ne (by decide), get_unkeyed_set_unkeyed_ne (by decide),
      get_unkeyed_set_unkeyed_ne (by decide)]
    exact get_unkeyed_set_unkeyed_self _ _ _
  · show ((((m.traces.set_unkeyed (Plan.source "logs/timely/operates") operates).set_unkeyed
      (Plan.source "logs/timely/channels") channels).set_unkeyed
      (Plan.source "logs/timely/schedule") schedule).set_unkeyed
      (Plan.source "logs/timely/messages") messages).get_unkeyed
      (Plan.source "logs/timely/channels") = some (channels.distinguish_since [])
    rw [get_unkeyed_set_unkeyed_ne (by decide), get_unkeyed_set_unkeyed_ne (by decide)]
    exact get_unkeyed_set_unkeyed_self _ _ _
  · show ((((m.traces.set_unkeyed (Plan.source "logs/timely/operates") operates).set_unkeyed
      (Plan.source "logs/timely/channels") channels).set_unkeyed
      (Plan.source "logs/timely/schedule") schedule).set_unkeyed
      (Plan.source "logs/timely/messages") messages).get_unkeyed
      (Plan.source "logs/timely/schedule") = some (schedule.distinguish_since [])
    rw [get_unkeyed_set_unkeyed_ne (by decide)]
    exact get_unkeyed_set_unkeyed_self _ _ _
  · exact get_unkeyed_set_unkeyed_self _ _ _
  · show ((m.traces.set_unkeyed (Plan.source "logs/differential/arrange/batch") batch).set_unkeyed
      (Plan.source "logs/differential/arrange/merge") merge).get_unkeyed
      (Plan.source "logs/differential/arrange/batch") = some (batch.distinguish_since [])
    rw [get_unkeyed_set_unkeyed_ne (by decide)]
    exact get_unkeyed_set_unkeyed_self _ _ _
  · exact get_unkeyed_set_unkeyed_self _ _ _

/-- Claim C10: `set_keyed(p, keys, h)` changes only the keyed entry at
exactly `(p, keys)` — every other keyed lookup, every unkeyed lookup, the
sessions and the probe are unchanged — and symmetrically `set_unkeyed(p, h)`
changes only the unkeyed entry at `p`. -/
theorem set_frame_property (m : Manager) (p p₁ : Plan) (keys keys₁ : List Nat)
    (h : TraceHandle) :
    ((p₁, keys₁) ≠ (p, keys) →
      (m.set_keyed p keys h).traces.get_keyed p₁ keys₁ = m.traces.get_keyed p₁ keys₁) ∧
    (m.set_keyed p keys h).traces.get_unkeyed p₁ = m.traces.get_unkeyed p₁ ∧
    (m.set_keyed p keys h).inputs = m.inputs ∧
    (m.set_keyed p keys h).probe = m.probe ∧
    (p₁ ≠ p →
      (m.set_unkeyed p h).traces.get_unkeyed p₁ = m.traces.get_unkeyed p₁) ∧
    (m.set_unkeyed p h).traces.get_keyed p₁ keys₁ = m.traces.get_keyed p₁ keys₁ ∧
    (m.set_unkeyed p h).inputs = m.inputs ∧
    (m.set_unkeyed p h).probe = m.probe :=
  ⟨fun hne => get_keyed_set_keyed_ne hne m.traces h, rfl, rfl, rfl,
   fun hne => get_unkeyed_set_unkeyed_ne hne m.traces h, rfl, rfl, rfl⟩

/-- Witness for C10 at concrete distinct plans and column sequences. -/
theorem set_frame_property_witness :
    (managerEx.set_keyed (Plan.source "a") [0] handleEx).traces.get_keyed
      (Plan.source "x") [1] = managerEx.traces.get_keyed (Plan.source "x") [1] ∧
    (managerEx.set_unkeyed (Plan.source "a") handleEx).traces.get_unkeyed
      (Plan.source "x") = managerEx.traces.get_unkeyed (Plan.source "x") := by
  have h := set_frame_property managerEx (Plan.source "a") (Plan.source "x") [0] [1] handleEx
  exact ⟨h.1 (by decide), h.2.2.2.2.1 (by decide)⟩
